import Mathlib

/-!
Verification of the seam-carving core `resizeable_image.py`.

The source exposes a grid collaborator (`width`, `height`, `energy(i, j)`) and
computes a minimum-energy vertical seam either by bottom-up dynamic programming
(`dynamic` + `dp_seam`) or by exhaustive breadth-first path enumeration
(`gd_seam`).  Both share the successor rule `nexts`.

Embedding conventions:
* cells are pairs `(i, j)` of naturals (column, row); energies are naturals
  (the spec assumes non-negative numbers);
* Python dict lookups that can raise `KeyError`, `min` over a possibly empty
  sequence (`ValueError`), and the implicit `return None` of `gd_seam` are
  modelled with an explicit error type `Err` inside `Except`;
* the per-call memo dict `penergies` caches the pure function `energy` and is
  observationally the identity, so energy reads are modelled as direct calls;
* `Node.next` is written but never read inside `gd_seam` (the seam is extracted
  by walking `prev` links, which are set at node creation and never mutated),
  so nodes are modelled by the purely functional `PNode` carrying `pixel` and
  `prev` only; `dp_seam`, where `next` is read immediately after being written,
  is modelled by the equivalent direct list construction;
* the bottom-up table-filling loop of `dynamic` is modelled by the recurrence
  it computes, with a structural fuel `height - j` that makes the definition
  computable by `decide`/`rfl`; likewise the growing worklist loop of
  `gd_seam` runs on an explicit fuel that exceeds the final worklist length.
-/

namespace SeamCarving

/-- A cell `(i, j)`: column `i`, row `j`. -/
abbrev Cell := ℕ × ℕ

/-- The grid collaborator consumed by the solvers: `width`, `height`, and the
pure per-pixel cost `energy i j` (non-negative, modelled in `ℕ`). -/
structure Grid where
  width : ℕ
  height : ℕ
  energy : ℕ → ℕ → ℕ

/-- Python `min` over a nonempty list of naturals; the `[]` default is never
consulted by the embedded code paths that use it. -/
def listMin : List ℕ → ℕ
  | [] => 0
  | x :: xs => xs.foldl min x

/-- First-minimum selection: start from `x` and replace only on a strictly
smaller key.  This is the shape of all three scans in the source: the row-0
scan and the successor scan of `dp_seam`, and `min(results, key=...)` in
`gd_seam`; each keeps the earliest element among ties. -/
def pickMin {α : Type} (key : α → ℕ) (x : α) (xs : List α) : α :=
  xs.foldl (fun b y => if key y < key b then y else b) x

/-- `nexts(i, j)`: the successor cells one row down, in the order
left-diagonal, straight-down, right-diagonal, with invalid candidates dropped.
The guards are transcribed verbatim; note the left-diagonal guard is
`i - 1 > 0` (on naturals this is `i > 1`, exactly as on Python integers),
which excludes column 0 as a left-diagonal target. -/
def nexts (g : Grid) (i j : ℕ) : List Cell :=
  ((if i - 1 > 0 ∧ j + 1 < g.height then some (i - 1, j + 1) else none) ::
   (if j + 1 < g.height then some (i, j + 1) else none) ::
   (if i + 1 < g.width ∧ j + 1 < g.height then some (i + 1, j + 1) else none) :: []).filterMap id

/-- The recurrence computed by the table-filling loop of `dynamic`, with a
structural fuel: a cell with no successors stores its own energy, any other
cell stores its own energy plus the minimum of its successors' stored values.
The fuel only needs to dominate `height - j` (successors live in row `j + 1`). -/
def costAux (g : Grid) : ℕ → ℕ → ℕ → ℕ
  | 0, i, j => g.energy i j
  | n + 1, i, j =>
    match nexts g i j with
    | [] => g.energy i j
    | c :: cs => g.energy i j + listMin ((c :: cs).map fun d => costAux g n d.1 d.2)

/-- The value stored by `dynamic` for cell `(i, j)`. -/
def cost (g : Grid) (i j : ℕ) : ℕ := costAux g (g.height - j) i j

/-- `dynamic()` as a finite map: its dict holds exactly the in-range cells
(keys `(i, j)` with `i < width`, `j < height`), each mapped to the recurrence
value; a lookup of any other cell raises `KeyError` (here: `none`). -/
def dynamic (g : Grid) (c : Cell) : Option ℕ :=
  if c.1 < g.width ∧ c.2 < g.height then some (cost g c.1 c.2) else none

/-- Failure modes surfaced by the source (plus the explicit rejection the spec
asks for, which the code never produces, and a fuel bound that is an artifact
of the embedding and is proved unreachable on the executions the claims use):
`keyError` for a dict lookup miss, `valueError` for `min` of an empty
sequence, `noneReturn` for `gd_seam` falling off its loop (Python `None`). -/
inductive Err : Type where
  | keyError : Err
  | valueError : Err
  | noneReturn : Err
  | invalidDims : Err
  | outOfFuel : Err
deriving DecidableEq, Repr

/-- The row-0 scan of `dp_seam`: start from column 0 holding `cells[(0, 0)]`,
then for `i in range(1, width)` replace the held column on a strictly smaller
table value. -/
def startCol (g : Grid) : ℕ :=
  pickMin (fun i => cost g i 0) 0 (List.range' 1 (g.width - 1))

/-- The forward walk of `dp_seam`: while the current row is not `height - 1`,
append the successor with the smallest table value (first minimum in `nexts`
order) and advance.  The `[]` successor case would be an `IndexError`
(`nxts[0]`) in Python; it is unreachable from in-range cells above the bottom
row.  Fuel `height` dominates the number of iterations. -/
def dpWalkAux (g : Grid) : ℕ → ℕ → ℕ → List Cell
  | 0, _, _ => []
  | n + 1, i, j =>
    if j = g.height - 1 then []
    else
      match nexts g i j with
      | [] => []
      | c :: cs =>
        let best := pickMin (fun d => cost g d.1 d.2) c cs
        best :: dpWalkAux g n best.1 best.2

/-- `dp_seam()`: build the table, pick the best row-0 start, walk down.  The
very first table access `cells[(0, 0)]` raises `KeyError` exactly when the
table is empty (`width = 0` or `height = 0`); all later accesses are of
in-range cells and cannot miss. -/
def dp_seam (g : Grid) : Except Err (List Cell) :=
  match dynamic g (0, 0) with
  | none => Except.error Err.keyError
  | some _ => Except.ok ((startCol g, 0) :: dpWalkAux g g.height (startCol g) 0)

/-- A node of the linked path structure used by `gd_seam`: the pixel and the
`prev` link (set at creation, never mutated).  The `next` field of the source
is written but never read inside `gd_seam`, so it is not modelled. -/
inductive PNode : Type where
  | mk : Cell → Option PNode → PNode

/-- The pixel stored in a node. -/
def PNode.pixel : PNode → Cell
  | .mk px _ => px

/-- The seam extraction loop of `gd_seam`: walk `prev` links from the end node
back to the root, prepending each pixel. -/
def chainCells : PNode → List Cell
  | .mk px none => [px]
  | .mk px (some p) => chainCells p ++ [px]

/-- A `Path` object: first node, accumulated energy, current last node, node
count. -/
structure GPath : Type where
  root : PNode
  energy : ℕ
  endN : PNode
  len : ℕ

/-- Forking in `gd_seam`: copy the path's root/energy/end/len, attach a fresh
node holding `c` with `prev` pointing at the old end, advance `end`, bump
`len`, and add the (memoized, pure) energy of `c`. -/
def fork (g : Grid) (p : GPath) (c : Cell) : GPath :=
  { root := p.root, energy := p.energy + g.energy c.1 c.2,
    endN := PNode.mk c (some p.endN), len := p.len + 1 }

/-- All forks of one processed path, in `nexts` order. -/
def extendPath (g : Grid) (p : GPath) : List GPath :=
  (nexts g p.endN.pixel.1 p.endN.pixel.2).map (fork g p)

/-- One seed path of `gd_seam`: a single node at `(i, 0)` that is both root
and end, holding that pixel's energy, with length 1. -/
def mkSeed (g : Grid) (i : ℕ) : GPath :=
  { root := PNode.mk (i, 0) none, energy := g.energy i 0,
    endN := PNode.mk (i, 0) none, len := 1 }

/-- The seeding loop of `gd_seam`: one single-node path per column of row 0. -/
def seeds (g : Grid) : List GPath :=
  (List.range g.width).map (mkSeed g)

/-- The worklist loop of `gd_seam`: `for path in paths` over a list that grows
at its end while being iterated, `k` being the loop index.  Processing the
path at `k`: if its end cell has no successors, filter the whole worklist to
paths of length `height` and return the first minimum-energy one (`min` of an
empty sequence is `ValueError`); otherwise append all forks and move on.
Running out of the list is Python's implicit `return None`. -/
def gdLoop (g : Grid) : ℕ → List GPath → ℕ → Except Err (List Cell)
  | 0, _, _ => Except.error Err.outOfFuel
  | fuel + 1, paths, k =>
    match paths[k]? with
    | none => Except.error Err.noneReturn
    | some path =>
      match nexts g path.endN.pixel.1 path.endN.pixel.2 with
      | [] =>
        match paths.filter (fun p => p.len == g.height) with
        | [] => Except.error Err.valueError
        | r :: rs => Except.ok (chainCells (pickMin GPath.energy r rs).endN)
      | _ :: _ => gdLoop g fuel (paths ++ extendPath g path) (k + 1)

/-- Worklist generation level by level: level `j` holds the paths whose end is
in row `j`, in their order of insertion (rows advance in lockstep, so the
worklist is the concatenation of the levels). -/
def level (g : Grid) : ℕ → List GPath
  | 0 => seeds g
  | j + 1 => (level g j).flatMap (extendPath g)

/-- Concatenation of levels `0, …, j - 1`: the prefix of the worklist that has
been fully generated once level `j - 1` is processed. -/
def upTo (g : Grid) : ℕ → List GPath
  | 0 => []
  | j + 1 => upTo g j ++ level g j

/-- Fuel bound for the embedded worklist loop: the loop advances its index at
every non-returning step, and the worklist never exceeds the concatenation of
all levels, so final-worklist-length + 1 steps always suffice. -/
def gdFuel (g : Grid) : ℕ := (upTo g g.height).length + 1

/-- `gd_seam()`: seed one path per row-0 column, then run the worklist loop. -/
def gd_seam (g : Grid) : Except Err (List Cell) :=
  gdLoop g (gdFuel g) (seeds g) 0

/-- `best_seam(dp)`: dispatch to the DP or the exhaustive solver. -/
def best_seam (g : Grid) (dp : Bool) : Except Err (List Cell) :=
  if dp then dp_seam g else gd_seam g

/-- Total energy of a cell sequence: `sum(energy(c) for c in seam)`. -/
def seamEnergy (g : Grid) (s : List Cell) : ℕ :=
  (s.map fun c => g.energy c.1 c.2).sum

/-- One step of the implemented adjacency: `b` is a `nexts`-successor of `a`. -/
def adjStep (g : Grid) (a b : Cell) : Prop :=
  b ∈ nexts g a.1 a.2

instance (g : Grid) (a b : Cell) : Decidable (adjStep g a b) :=
  inferInstanceAs (Decidable (b ∈ nexts g a.1 a.2))

/-- A complete seam in the sense of the implemented successor rule: one cell
per row (`height` cells), starting at an in-range cell of row 0, each
consecutive pair linked by `nexts`. -/
def IsSeam (g : Grid) (s : List Cell) : Prop :=
  s.length = g.height ∧
  (∀ c ∈ s.take 1, c.1 < g.width ∧ c.2 = 0) ∧
  List.Chain' (adjStep g) s

instance (g : Grid) (s : List Cell) : Decidable (IsSeam g s) :=
  inferInstanceAs (Decidable (s.length = g.height ∧
    (∀ c ∈ s.take 1, c.1 < g.width ∧ c.2 = 0) ∧
    List.Chain' (adjStep g) s))

/-- A path from a given cell down to the bottom row, following `nexts`:
nonempty, headed at the cell, chained by `nexts`, ending in row `height - 1`. -/
def IsPathFrom (g : Grid) (i j : ℕ) (p : List Cell) : Prop :=
  p.head? = some (i, j) ∧
  List.Chain' (adjStep g) p ∧
  ∃ c, p.getLast? = some c ∧ c.2 = g.height - 1

/-- The adjacency relation as claim C3 words it: the row increases by exactly
one and the column changes by at most one, staying within `[0, width)`. -/
def idealAdj (g : Grid) (a b : Cell) : Prop :=
  b.2 = a.2 + 1 ∧ b.1 < g.width ∧ (b.1 = a.1 ∨ b.1 + 1 = a.1 ∨ b.1 = a.1 + 1)

instance (g : Grid) (a b : Cell) : Decidable (idealAdj g a b) :=
  inferInstanceAs (Decidable (b.2 = a.2 + 1 ∧ b.1 < g.width ∧
    (b.1 = a.1 ∨ b.1 + 1 = a.1 ∨ b.1 = a.1 + 1)))

/-- A complete top-to-bottom path under the claim's ideal adjacency. -/
def IsIdealSeam (g : Grid) (s : List Cell) : Prop :=
  s.length = g.height ∧
  (∀ c ∈ s.take 1, c.1 < g.width ∧ c.2 = 0) ∧
  List.Chain' (idealAdj g) s

instance (g : Grid) (s : List Cell) : Decidable (IsIdealSeam g s) :=
  inferInstanceAs (Decidable (s.length = g.height ∧
    (∀ c ∈ s.take 1, c.1 < g.width ∧ c.2 = 0) ∧
    List.Chain' (idealAdj g) s))

/-- The successor rule as claim C5 words it: candidates
`(i-1, j+1)`, `(i, j+1)`, `(i+1, j+1)`, kept when the target row is below
`height` and, for the diagonals, the target column lies within `[0, width)`
(for the left diagonal this needs `i ≥ 1`, the target column being `i - 1`). -/
def specNexts (g : Grid) (i j : ℕ) : List Cell :=
  ((if 1 ≤ i ∧ i - 1 < g.width ∧ j + 1 < g.height then some (i - 1, j + 1) else none) ::
   (if j + 1 < g.height then some (i, j + 1) else none) ::
   (if i + 1 < g.width ∧ j + 1 < g.height then some (i + 1, j + 1) else none) :: []).filterMap id

/-- The successor rule as the amended claim C5 words it: as `specNexts`, but
the left-diagonal target column must lie within `[1, width)`. -/
def amendedNexts (g : Grid) (i j : ℕ) : List Cell :=
  ((if 1 ≤ i - 1 ∧ i - 1 < g.width ∧ j + 1 < g.height then some (i - 1, j + 1) else none) ::
   (if j + 1 < g.height then some (i, j + 1) else none) ::
   (if i + 1 < g.width ∧ j + 1 < g.height then some (i + 1, j + 1) else none) :: []).filterMap id

/-- Column sequence of a seam, for the lexicographic tie-break statement. -/
def colSeq (s : List Cell) : List ℕ := s.map Prod.fst

/-- The encounter order of complete paths in the worklist of `gd_seam`:
lexicographic comparison of the column sequences, i.e. lower starting column
first, then leftmost adjacency choice first. -/
def colLex (s t : List Cell) : Prop :=
  List.Lex (fun m n => m < n) (colSeq s) (colSeq t)

/-- The invariant of every `Path` object that `gd_seam` ever places in its
worklist at generation level `j` (claim C6): `len` counts the nodes on the
`prev` chain from `end` back to the root, `energy` sums exactly their
energies, the end pixel sits in row `j = len - 1`, and the chain read off the
`prev` links is a `nexts`-chain starting at an in-range cell of row 0. -/
def PathInv (g : Grid) (j : ℕ) (p : GPath) : Prop :=
  (chainCells p.endN).length = p.len ∧
  p.len = j + 1 ∧
  p.energy = seamEnergy g (chainCells p.endN) ∧
  p.endN.pixel.2 = j ∧
  (chainCells p.endN).getLast? = some p.endN.pixel ∧
  (∀ c ∈ (chainCells p.endN).take 1, c.1 < g.width ∧ c.2 = 0) ∧
  List.Chain' (adjStep g) (chainCells p.endN)

/-- The 3×3 grid of the concrete scenario: energy 1 on column 1, 9 elsewhere. -/
def g3 : Grid := { width := 3, height := 3, energy := fun i _ => if i = 1 then 1 else 9 }

/-- A 2×2 grid separating the implemented successor rule from the ideal one:
energy 5 on the main diagonal, 0 off it. -/
def g22 : Grid := { width := 2, height := 2, energy := fun i j => if i = j then 5 else 0 }

/-- A 3×2 grid (any energies) for exercising the left-diagonal boundary. -/
def g32 : Grid := { width := 3, height := 2, energy := fun _ _ => 0 }

/-- The empty 0×0 grid. -/
def g00 : Grid := { width := 0, height := 0, energy := fun _ _ => 0 }

/-- A 2×0 grid: positive width, zero height. -/
def g20 : Grid := { width := 2, height := 0, energy := fun _ _ => 0 }

/-- A 4×1 grid with a tie for the minimum of row 0 (columns 1 and 2). -/
def g41 : Grid :=
  { width := 4, height := 1,
    energy := fun i _ => if i = 1 then 2 else if i = 2 then 2 else 9 }

/-! ### The first-minimum scans -/

theorem pickMin_cons {α : Type} (key : α → ℕ) (x y : α) (ys : List α) :
    pickMin key x (y :: ys) = pickMin key (if key y < key x then y else x) ys := rfl

theorem pickMin_mem {α : Type} (key : α → ℕ) (x : α) (xs : List α) :
    pickMin key x xs ∈ x :: xs := by
  induction xs generalizing x with
  | nil => simp [pickMin]
  | cons y ys ih =>
    by_cases hc : key y < key x
    · rw [pickMin_cons, if_pos hc]
      rcases List.mem_cons.mp (ih y) with h1 | h1 <;> simp [h1]
    · rw [pickMin_cons, if_neg hc]
      rcases List.mem_cons.mp (ih x) with h1 | h1 <;> simp [h1]

theorem pickMin_le {α : Type} (key : α → ℕ) (x : α) (xs : List α) :
    ∀ y ∈ x :: xs, key (pickMin key x xs) ≤ key y := by
  induction xs generalizing x with
  | nil =>
    intro y hy
    rw [List.mem_singleton] at hy
    simp [pickMin, hy]
  | cons z zs ih =>
    intro y hy
    by_cases hc : key z < key x
    · rw [pickMin_cons, if_pos hc]
      rcases List.mem_cons.mp hy with h | h
      · rw [h]; exact le_trans (ih z z (by simp)) (le_of_lt hc)
      · rcases List.mem_cons.mp h with h2 | h2
        · rw [h2]; exact ih z z (by simp)
        · exact ih z y (by simp [h2])
    · rw [pickMin_cons, if_neg hc]
      rcases List.mem_cons.mp hy with h | h
      · rw [h]; exact ih x x (by simp)
      · rcases List.mem_cons.mp h with h2 | h2
        · rw [h2]; exact le_trans (ih x x (by simp)) (le_of_not_lt hc)
        · exact ih x y (by simp [h2])

theorem pickMin_key {α : Type} (key : α → ℕ) (x : α) (xs : List α) :
    key (pickMin key x xs) = listMin ((x :: xs).map key) := by
  induction xs generalizing x with
  | nil => simp [pickMin, listMin]
  | cons z zs ih =>
    rw [pickMin_cons, ih]
    have hmin : key (if key z < key x then z else x) = min (key x) (key z) := by
      split <;> omega
    simp [listMin, hmin]

theorem listMin_eq_pickMin (a : ℕ) (l : List ℕ) :
    listMin (a :: l) = pickMin (fun n => n) a l := by
  have h := pickMin_key (fun n => n) a l
  simpa using h.symm

theorem listMin_le {l : List ℕ} {x : ℕ} (hx : x ∈ l) : listMin l ≤ x := by
  cases l with
  | nil => simp at hx
  | cons a l => rw [listMin_eq_pickMin]; exact pickMin_le (fun n => n) a l x hx

theorem listMin_mem {l : List ℕ} (h : l ≠ []) : listMin l ∈ l := by
  cases l with
  | nil => exact absurd rfl h
  | cons a l => rw [listMin_eq_pickMin]; exact pickMin_mem (fun n => n) a l

theorem pickMin_first {α : Type} (key : α → ℕ) (x : α) (xs : List α) :
    ∃ l₁ l₂, x :: xs = l₁ ++ pickMin key x xs :: l₂ ∧
      ∀ y ∈ l₁, key (pickMin key x xs) < key y := by
  induction xs generalizing x with
  | nil => exact ⟨[], [], by simp [pickMin], by simp⟩
  | cons z zs ih =>
    by_cases hc : key z < key x
    · obtain ⟨l₁, l₂, heq, hlt⟩ := ih z
      rw [pickMin_cons, if_pos hc]
      refine ⟨x :: l₁, l₂, by rw [List.cons_append, ← heq], ?_⟩
      intro y hy
      rcases List.mem_cons.mp hy with h | h
      · rw [h]; exact lt_of_le_of_lt (pickMin_le key z zs z (by simp)) hc
      · exact hlt y h
    · obtain ⟨l₁, l₂, heq, hlt⟩ := ih x
      rw [pickMin_cons, if_neg hc]
      cases l₁ with
      | nil =>
        rw [List.nil_append, List.cons.injEq] at heq
        refine ⟨[], z :: zs, ?_, by simp⟩
        rw [List.nil_append, List.cons.injEq]
        exact ⟨heq.1, rfl⟩
      | cons a l₁ =>
        rw [List.cons_append, List.cons.injEq] at heq
        obtain ⟨hxa, hzs⟩ := heq
        have hax : key (pickMin key x zs) < key x := by
          have := hlt a (by simp)
          rw [← hxa] at this
          exact this
        refine ⟨x :: z :: l₁, l₂, ?_, ?_⟩
        · conv_lhs => rw [hzs]
          simp
        · intro y hy
          rcases List.mem_cons.mp hy with h | h
          · rw [h]; exact hax
          · rcases List.mem_cons.mp h with h2 | h2
            · rw [h2]; exact lt_of_lt_of_le hax (le_of_not_lt hc)
            · exact hlt y (by simp [h2])

theorem pickMin_tie {α : Type} (key : α → ℕ) (R : α → α → Prop) (x : α) (xs : List α)
    (hpw : (x :: xs).Pairwise R) :
    ∀ y ∈ x :: xs, key y = key (pickMin key x xs) →
      y = pickMin key x xs ∨ R (pickMin key x xs) y := by
  obtain ⟨l₁, l₂, heq, hlt⟩ := pickMin_first key x xs
  intro y hy hkey
  rw [heq] at hy hpw
  rcases List.mem_append.mp hy with h | h
  · have := hlt y h; omega
  · rcases List.mem_cons.mp h with h | h
    · exact Or.inl h
    · right
      have hp2 := (List.pairwise_append.mp hpw).2.1
      exact (List.pairwise_cons.mp hp2).1 y h

theorem pickMin_congr {α : Type} {k₁ k₂ : α → ℕ} (x : α) (xs : List α)
    (h : ∀ y ∈ x :: xs, k₁ y = k₂ y) : pickMin k₁ x xs = pickMin k₂ x xs := by
  induction xs generalizing x with
  | nil => rfl
  | cons z zs ih =>
    have hsub : ∀ w : α, w = x ∨ w = z → ∀ y ∈ w :: zs, k₁ y = k₂ y := by
      intro w hw y hy
      rcases List.mem_cons.mp hy with h' | h'
      · rw [h']
        rcases hw with hw | hw <;> rw [hw]
        · exact h x (by simp)
        · exact h z (by simp)
      · exact h y (by simp [h'])
    rw [pickMin_cons, pickMin_cons, h z (by simp), h x (by simp)]
    by_cases hc : k₂ z < k₂ x
    · rw [if_pos hc]; exact ih z (hsub z (Or.inr rfl))
    · rw [if_neg hc]; exact ih x (hsub x (Or.inl rfl))

theorem pickMin_map {α β : Type} (key : β → ℕ) (f : α → β) (x : α) (xs : List α) :
    pickMin key (f x) (xs.map f) = f (pickMin (fun a => key (f a)) x xs) := by
  induction xs generalizing x with
  | nil => rfl
  | cons z zs ih =>
    rw [List.map_cons, pickMin_cons, pickMin_cons]
    by_cases hc : key (f z) < key (f x)
    · rw [if_pos hc, if_pos hc, ih]
    · rw [if_neg hc, if_neg hc, ih]

/-! ### The successor rule -/

theorem mem_nexts {g : Grid} {i j : ℕ} {c : Cell} :
    c ∈ nexts g i j ↔
      j + 1 < g.height ∧
      ((1 < i ∧ c = (i - 1, j + 1)) ∨ c = (i, j + 1) ∨
        (i + 1 < g.width ∧ c = (i + 1, j + 1))) := by
  unfold nexts
  by_cases h2 : j + 1 < g.height
  · by_cases h1 : i - 1 > 0 <;> by_cases h3 : i + 1 < g.width <;>
      simp [h1, h2, h3, Prod.ext_iff] <;> omega
  · simp [h2]

theorem nexts_row {g : Grid} {i j : ℕ} {c : Cell} (hc : c ∈ nexts g i j) :
    c.2 = j + 1 ∧ j + 1 < g.height := by
  rcases mem_nexts.mp hc with ⟨h2, h⟩
  refine ⟨?_, h2⟩
  rcases h with ⟨_, h⟩ | h | ⟨_, h⟩ <;> rw [h]

theorem down_mem_nexts {g : Grid} (i : ℕ) {j : ℕ} (hj : j + 1 < g.height) :
    (i, j + 1) ∈ nexts g i j :=
  mem_nexts.mpr ⟨hj, Or.inr (Or.inl rfl)⟩

theorem nexts_nil_iff {g : Grid} {i j : ℕ} :
    nexts g i j = [] ↔ g.height ≤ j + 1 := by
  constructor
  · intro hnil
    by_contra hlt
    push_neg at hlt
    have hm := down_mem_nexts (g := g) i hlt
    rw [hnil] at hm
    simp at hm
  · intro hge
    rw [List.eq_nil_iff_forall_not_mem]
    intro c hc
    have := (nexts_row hc).2
    omega

theorem nexts_col {g : Grid} {i j : ℕ} (hi : i < g.width) {c : Cell}
    (hc : c ∈ nexts g i j) : c.1 < g.width := by
  rcases mem_nexts.mp hc with ⟨h2, ⟨h1, h⟩ | h | ⟨h3, h⟩⟩ <;> rw [h] <;> simp <;> omega

theorem nexts_ideal {g : Grid} {i j : ℕ} (hi : i < g.width) {c : Cell}
    (hc : c ∈ nexts g i j) : idealAdj g (i, j) c := by
  rcases mem_nexts.mp hc with ⟨h2, ⟨h1, h⟩ | h | ⟨h3, h⟩⟩ <;> rw [h] <;>
    simp [idealAdj] <;> omega

theorem nexts_cols_sorted (g : Grid) (i j : ℕ) :
    (nexts g i j).Pairwise (fun c d => c.1 < d.1) := by
  unfold nexts
  split_ifs <;> simp_all [List.pairwise_cons] <;> omega

@[simp] theorem adjStep_iff {g : Grid} {a b : Cell} :
    adjStep g a b ↔ b ∈ nexts g a.1 a.2 := Iff.rfl

/-! ### The cost table -/

theorem seamEnergy_cons {g : Grid} {c : Cell} {s : List Cell} :
    seamEnergy g (c :: s) = g.energy c.1 c.2 + seamEnergy g s := by
  simp [seamEnergy]

theorem seamEnergy_append {g : Grid} {s t : List Cell} :
    seamEnergy g (s ++ t) = seamEnergy g s + seamEnergy g t := by
  simp [seamEnergy]

theorem costAux_eq_cost (g : Grid) :
    ∀ n i j, g.height - j ≤ n → costAux g n i j = cost g i j := by
  intro n
  induction n using Nat.strong_induction_on with
  | _ n ih =>
    intro i j hn
    cases hx : nexts g i j with
    | nil =>
      have h1 : costAux g n i j = g.energy i j := by
        cases n <;> simp [costAux, hx]
      rw [h1]
      unfold cost
      cases hd : g.height - j <;> simp [costAux, hx]
    | cons c cs =>
      have hj : j + 1 < g.height := (nexts_row (show c ∈ nexts g i j by rw [hx]; simp)).2
      obtain ⟨n', rfl⟩ : ∃ n', n = n' + 1 := ⟨n - 1, by omega⟩
      have hd : g.height - j = g.height - (j + 1) + 1 := by omega
      have h1 : costAux g (n' + 1) i j =
          g.energy i j + listMin ((c :: cs).map fun d => costAux g n' d.1 d.2) := by
        simp [costAux, hx]
      have h2 : costAux g (g.height - (j + 1) + 1) i j =
          g.energy i j +
            listMin ((c :: cs).map fun d => costAux g (g.height - (j + 1)) d.1 d.2) := by
        simp [costAux, hx]
      have hmap : ((c :: cs).map fun d => costAux g n' d.1 d.2) =
          ((c :: cs).map fun d => costAux g (g.height - (j + 1)) d.1 d.2) := by
        apply List.map_congr_left
        intro d hd'
        have hdrow : d.2 = j + 1 := (nexts_row (show d ∈ nexts g i j by rw [hx]; exact hd')).1
        rw [ih n' (Nat.lt_succ_self n') d.1 d.2 (by omega),
          ih (g.height - (j + 1)) (by omega) d.1 d.2 (by omega)]
      calc costAux g (n' + 1) i j
          = g.energy i j + listMin ((c :: cs).map fun d => costAux g n' d.1 d.2) := h1
        _ = g.energy i j +
              listMin ((c :: cs).map fun d => costAux g (g.height - (j + 1)) d.1 d.2) := by
            rw [hmap]
        _ = costAux g (g.height - (j + 1) + 1) i j := h2.symm
        _ = costAux g (g.height - j) i j := by rw [← hd]
        _ = cost g i j := rfl

theorem cost_of_nil {g : Grid} {i j : ℕ} (hx : nexts g i j = []) :
    cost g i j = g.energy i j := by
  unfold cost
  cases hd : g.height - j <;> simp [costAux, hx]

theorem cost_of_cons {g : Grid} {i j : ℕ} {c : Cell} {cs : List Cell}
    (hx : nexts g i j = c :: cs) :
    cost g i j = g.energy i j + listMin ((c :: cs).map fun d => cost g d.1 d.2) := by
  have hj : j + 1 < g.height := (nexts_row (show c ∈ nexts g i j by rw [hx]; simp)).2
  have hd : g.height - j = g.height - (j + 1) + 1 := by omega
  have h2 : costAux g (g.height - (j + 1) + 1) i j =
      g.energy i j +
        listMin ((c :: cs).map fun d => costAux g (g.height - (j + 1)) d.1 d.2) := by
    simp [costAux, hx]
  have hmap : ((c :: cs).map fun d => costAux g (g.height - (j + 1)) d.1 d.2) =
      ((c :: cs).map fun d => cost g d.1 d.2) := by
    apply List.map_congr_left
    intro d hd'
    have hdrow : d.2 = j + 1 := (nexts_row (show d ∈ nexts g i j by rw [hx]; exact hd')).1
    exact costAux_eq_cost g _ d.1 d.2 (by omega)
  have hcost : cost g i j = costAux g (g.height - (j + 1) + 1) i j := by
    unfold cost
    rw [hd]
  rw [hcost, h2, hmap]

theorem cost_le_path {g : Grid} :
    ∀ {p : List Cell} {i j : ℕ}, IsPathFrom g i j p → cost g i j ≤ seamEnergy g p := by
  intro p
  induction p with
  | nil => intro i j h; simp [IsPathFrom] at h
  | cons a q ih =>
    intro i j h
    obtain ⟨hhead, hchain, c, hlast, hrow⟩ := h
    simp at hhead
    cases q with
    | nil =>
      simp at hlast
      have hc : c = (i, j) := by rw [← hlast, hhead]
      rw [hc] at hrow
      simp at hrow
      have hnil : nexts g i j = [] := nexts_nil_iff.mpr (by omega)
      rw [cost_of_nil hnil]
      simp [seamEnergy, hhead]
    | cons b r =>
      rw [List.chain'_cons] at hchain
      obtain ⟨hab, hchain'⟩ := hchain
      have hb : b ∈ nexts g i j := by
        have := adjStep_iff.mp hab
        rw [hhead] at this
        exact this
      have hpf : IsPathFrom g b.1 b.2 (b :: r) := by
        refine ⟨by simp, hchain', c, ?_, hrow⟩
        rw [← List.getLast?_cons_cons (a := a)]
        exact hlast
      cases hx : nexts g i j with
      | nil => rw [hx] at hb; simp at hb
      | cons c0 cs0 =>
        rw [cost_of_cons hx]
        have h1 : cost g b.1 b.2 ≤ seamEnergy g (b :: r) := ih hpf
        have h2 : listMin ((c0 :: cs0).map fun d => cost g d.1 d.2) ≤ cost g b.1 b.2 := by
          apply listMin_le
          rw [← hx]
          exact List.mem_map_of_mem _ hb
        rw [seamEnergy_cons, hhead]
        simp only []
        omega

theorem path_length {g : Grid} :
    ∀ {p : List Cell} {i j : ℕ}, IsPathFrom g i j p → j < g.height →
      p.length = g.height - j := by
  intro p
  induction p with
  | nil => intro i j h _; simp [IsPathFrom] at h
  | cons a q ih =>
    intro i j h hj
    obtain ⟨hhead, hchain, c, hlast, hrow⟩ := h
    simp at hhead
    cases q with
    | nil =>
      simp at hlast
      have hc : c = (i, j) := by rw [← hlast, hhead]
      rw [hc] at hrow
      simp at hrow
      simp
      omega
    | cons b r =>
      rw [List.chain'_cons] at hchain
      obtain ⟨hab, hchain'⟩ := hchain
      have hb : b ∈ nexts g i j := by
        have := adjStep_iff.mp hab
        rw [hhead] at this
        exact this
      have hbrow := nexts_row hb
      have hpf : IsPathFrom g b.1 b.2 (b :: r) := by
        refine ⟨by simp, hchain', c, ?_, hrow⟩
        rw [← List.getLast?_cons_cons (a := a)]
        exact hlast
      have := ih hpf (by omega)
      simp at this ⊢
      omega

theorem cost_exists_path (g : Grid) :
    ∀ n i j, j < g.height → g.height - j ≤ n →
      ∃ p, IsPathFrom g i j p ∧ seamEnergy g p = cost g i j := by
  intro n
  induction n with
  | zero => intro i j hj hn; omega
  | succ n ih =>
    intro i j hj hn
    cases hx : nexts g i j with
    | nil =>
      have hge := nexts_nil_iff.mp hx
      refine ⟨[(i, j)], ⟨by simp, by simp, (i, j), by simp, ?_⟩, ?_⟩
      · simp; omega
      · rw [cost_of_nil hx]; simp [seamEnergy]
    | cons c cs =>
      have hj1 : j + 1 < g.height := (nexts_row (show c ∈ nexts g i j by rw [hx]; simp)).2
      have hne : ((c :: cs).map fun d => cost g d.1 d.2) ≠ [] := by simp
      have hmem := listMin_mem hne
      rw [List.mem_map] at hmem
      obtain ⟨d, hd, hdval⟩ := hmem
      have hdmem : d ∈ nexts g i j := by rw [hx]; exact hd
      have hdrow : d.2 = j + 1 := (nexts_row hdmem).1
      obtain ⟨q, hq, hqe⟩ := ih d.1 d.2 (by omega) (by omega)
      obtain ⟨hqhead, hqchain, cl, hqlast, hqrow⟩ := hq
      refine ⟨(i, j) :: q, ⟨by simp, ?_, cl, ?_, hqrow⟩, ?_⟩
      · rw [List.chain'_cons']
        refine ⟨?_, hqchain⟩
        intro y hy
        rw [hqhead] at hy
        simp at hy
        subst hy
        rw [adjStep_iff]
        simpa using hdmem
      · cases q with
        | nil => simp at hqhead
        | cons b r => rw [List.getLast?_cons_cons]; exact hqlast
      · rw [seamEnergy_cons, hqe]
        simp only []
        rw [cost_of_cons hx, hdval]

/-! ### Seams and paths -/

theorem chain_last_row {g : Grid} :
    ∀ (s : List Cell) (a : Cell), List.Chain' (adjStep g) s → s.head? = some a →
      ∃ c, s.getLast? = some c ∧ c.2 + 1 = a.2 + s.length := by
  intro s
  induction s with
  | nil => intro a _ h; simp at h
  | cons b t ih =>
    intro a hchain hhead
    simp at hhead
    cases t with
    | nil => exact ⟨b, by simp, by rw [hhead]; simp⟩
    | cons d r =>
      rw [List.chain'_cons] at hchain
      have hdrow := nexts_row (adjStep_iff.mp hchain.1)
      obtain ⟨c, hlast, hcrow⟩ := ih d hchain.2 (by simp)
      refine ⟨c, by rw [List.getLast?_cons_cons]; exact hlast, ?_⟩
      simp at hcrow ⊢
      rw [hhead] at hdrow
      omega

theorem isSeam_pathFrom {g : Grid} {s : List Cell} (hs : IsSeam g s) (hh : 1 ≤ g.height) :
    ∃ i, i < g.width ∧ s.head? = some (i, 0) ∧ IsPathFrom g i 0 s := by
  obtain ⟨hlen, hstart, hchain⟩ := hs
  cases s with
  | nil => rw [List.length_nil] at hlen; omega
  | cons a t =>
    obtain ⟨a1, a2⟩ := a
    obtain ⟨hw, hr⟩ := hstart (a1, a2) (by simp)
    simp at hw hr
    obtain ⟨c, hlast, hcrow⟩ :=
      chain_last_row ((a1, a2) :: t) (a1, a2) hchain (by simp)
    refine ⟨a1, hw, by simp [hr], by simp [hr], hchain, c, hlast, ?_⟩
    have hlen' : t.length + 1 = g.height := by simpa using hlen
    simp at hcrow
    omega

theorem pathFrom_isSeam {g : Grid} {s : List Cell} {i : ℕ} (hi : i < g.width)
    (hp : IsPathFrom g i 0 s) (hh : 1 ≤ g.height) : IsSeam g s := by
  obtain ⟨hhead, hchain, c, hlast, hrow⟩ := hp
  refine ⟨?_, ?_, hchain⟩
  · have := path_length ⟨hhead, hchain, c, hlast, hrow⟩ (by omega)
    simpa using this
  · intro d hd
    cases s with
    | nil => simp at hhead
    | cons a t =>
      simp at hd hhead
      rw [hd, hhead]
      exact ⟨hi, rfl⟩

theorem chain_cols {g : Grid} :
    ∀ (s : List Cell) (a : Cell), List.Chain' (adjStep g) s → s.head? = some a →
      a.1 < g.width → ∀ c ∈ s, c.1 < g.width := by
  intro s
  induction s with
  | nil => intro a _ _ _ c hc; simp at hc
  | cons b t ih =>
    intro a hchain hhead hw c hc
    simp at hhead
    rcases List.mem_cons.mp hc with h | h
    · rw [h, hhead]; exact hw
    · cases t with
      | nil => simp at h
      | cons d r =>
        rw [List.chain'_cons] at hchain
        have hd : d.1 < g.width := by
          apply nexts_col (show b.1 < g.width by rw [hhead]; exact hw)
          exact adjStep_iff.mp hchain.1
        exact ih d hchain.2 (by simp) hd c h

theorem chain_ideal {g : Grid} :
    ∀ (s : List Cell), List.Chain' (adjStep g) s → (∀ c ∈ s, c.1 < g.width) →
      List.Chain' (idealAdj g) s := by
  intro s
  induction s with
  | nil => intro _ _; simp
  | cons b t ih =>
    intro hchain hcols
    cases t with
    | nil => simp
    | cons d r =>
      rw [List.chain'_cons] at hchain ⊢
      refine ⟨?_, ih hchain.2 (fun c hc => hcols c (by simp [hc]))⟩
      have hb : b.1 < g.width := hcols b (by simp)
      have := nexts_ideal hb (adjStep_iff.mp hchain.1)
      simpa using this

theorem isSeam_isIdeal {g : Grid} {s : List Cell} (hs : IsSeam g s) (hh : 1 ≤ g.height) :
    IsIdealSeam g s := by
  obtain ⟨i, hi, hhead, hp⟩ := isSeam_pathFrom hs hh
  refine ⟨hs.1, hs.2.1, chain_ideal s hs.2.2 ?_⟩
  exact chain_cols s (i, 0) hs.2.2 hhead hi

/-! ### The DP solver -/

theorem row0_list {w : ℕ} (hw : 1 ≤ w) :
    (0 : ℕ) :: List.range' 1 (w - 1) = List.range w := by
  rw [List.range_eq_range']
  obtain ⟨w', rfl⟩ : ∃ w', w = w' + 1 := ⟨w - 1, by omega⟩
  rw [List.range'_succ]
  simp

theorem startCol_lt (g : Grid) (hw : 1 ≤ g.width) : startCol g < g.width := by
  have h := pickMin_mem (fun i => cost g i 0) 0 (List.range' 1 (g.width - 1))
  rw [row0_list hw] at h
  exact List.mem_range.mp h

theorem startCol_min (g : Grid) (hw : 1 ≤ g.width) :
    ∀ i < g.width, cost g (startCol g) 0 ≤ cost g i 0 := by
  intro i hi
  have h := pickMin_le (fun n => cost g n 0) 0 (List.range' 1 (g.width - 1)) i
    (by rw [row0_list hw]; exact List.mem_range.mpr hi)
  simpa [startCol] using h

theorem dpWalk_correct (g : Grid) :
    ∀ n (a : Cell), a.2 < g.height → g.height - 1 - a.2 ≤ n →
      IsPathFrom g a.1 a.2 (a :: dpWalkAux g n a.1 a.2) ∧
        seamEnergy g (a :: dpWalkAux g n a.1 a.2) = cost g a.1 a.2 := by
  intro n
  induction n with
  | zero =>
    intro a hj hn
    have hj' : a.2 = g.height - 1 := by omega
    have hnil : nexts g a.1 a.2 = [] := nexts_nil_iff.mpr (by omega)
    constructor
    · exact ⟨by simp, by simp [dpWalkAux], a, by simp [dpWalkAux], hj'⟩
    · rw [show dpWalkAux g 0 a.1 a.2 = [] from rfl, seamEnergy_cons]
      rw [cost_of_nil hnil]
      simp [seamEnergy]
  | succ n ih =>
    intro a hj hn
    by_cases hend : a.2 = g.height - 1
    · have hnil : nexts g a.1 a.2 = [] := nexts_nil_iff.mpr (by omega)
      have hwalk : dpWalkAux g (n + 1) a.1 a.2 = [] := by simp [dpWalkAux, hend]
      constructor
      · exact ⟨by simp, by simp [hwalk], a, by simp [hwalk], hend⟩
      · rw [hwalk, seamEnergy_cons, cost_of_nil hnil]
        simp [seamEnergy]
    · have hj1 : a.2 + 1 < g.height := by omega
      cases hx : nexts g a.1 a.2 with
      | nil => exact absurd (nexts_nil_iff.mp hx) (by omega)
      | cons c cs =>
        have hwalk : dpWalkAux g (n + 1) a.1 a.2 =
            pickMin (fun d => cost g d.1 d.2) c cs ::
              dpWalkAux g n (pickMin (fun d => cost g d.1 d.2) c cs).1
                (pickMin (fun d => cost g d.1 d.2) c cs).2 := by
          simp [dpWalkAux, hend, hx]
        set best := pickMin (fun d => cost g d.1 d.2) c cs with hbest
        have hbmem : best ∈ nexts g a.1 a.2 := by rw [hx]; exact pickMin_mem _ c cs
        have hbrow : best.2 = a.2 + 1 := (nexts_row hbmem).1
        obtain ⟨⟨ihhead, ihchain, cl, ihlast, ihrow⟩, ihe⟩ :=
          ih best (by omega) (by omega)
        rw [hwalk]
        constructor
        · refine ⟨by simp, ?_, cl, ?_, ihrow⟩
          · rw [List.chain'_cons']
            refine ⟨?_, ihchain⟩
            intro y hy
            simp at hy
            subst hy
            rw [adjStep_iff]
            exact hbmem
          · rw [List.getLast?_cons_cons]
            exact ihlast
        · rw [seamEnergy_cons, ihe, cost_of_cons hx]
          have hkey : cost g best.1 best.2 =
              listMin ((c :: cs).map fun d => cost g d.1 d.2) :=
            pickMin_key (fun d => cost g d.1 d.2) c cs
          rw [hkey]

theorem dp_core (g : Grid) (hw : 1 ≤ g.width) (hh : 1 ≤ g.height) :
    dp_seam g = Except.ok ((startCol g, 0) :: dpWalkAux g g.height (startCol g) 0) ∧
    IsSeam g ((startCol g, 0) :: dpWalkAux g g.height (startCol g) 0) ∧
    seamEnergy g ((startCol g, 0) :: dpWalkAux g g.height (startCol g) 0) =
      cost g (startCol g) 0 ∧
    ∀ t, IsSeam g t → cost g (startCol g) 0 ≤ seamEnergy g t := by
  have hpos : ((0, 0) : Cell).1 < g.width ∧ ((0, 0) : Cell).2 < g.height := by
    simp; omega
  have hdyn : dynamic g (0, 0) = some (cost g 0 0) := by
    unfold dynamic
    rw [if_pos hpos]
  obtain ⟨hp, he⟩ := dpWalk_correct g g.height (startCol g, 0) (by simp; omega) (by simp)
  refine ⟨?_, ?_, he, ?_⟩
  · unfold dp_seam
    rw [hdyn]
  · exact pathFrom_isSeam (startCol_lt g hw) hp hh
  · intro t ht
    obtain ⟨i, hi, hhead, hpf⟩ := isSeam_pathFrom ht hh
    calc cost g (startCol g) 0 ≤ cost g i 0 := startCol_min g hw i hi
      _ ≤ seamEnergy g t := cost_le_path hpf

/-! ### The exhaustive solver: worklist levels -/

theorem chainCells_fork (g : Grid) (p : GPath) (c : Cell) :
    chainCells (fork g p c).endN = chainCells p.endN ++ [c] := rfl

theorem level_inv (g : Grid) : ∀ j p, p ∈ level g j → PathInv g j p := by
  intro j
  induction j with
  | zero =>
    intro p hp
    rw [level, seeds] at hp
    obtain ⟨i, hi, rfl⟩ := List.mem_map.mp hp
    rw [List.mem_range] at hi
    refine ⟨rfl, rfl, ?_, rfl, rfl, ?_, ?_⟩
    · simp [mkSeed, chainCells, seamEnergy]
    · intro c hc
      simp [mkSeed, chainCells] at hc
      rw [hc]
      exact ⟨hi, rfl⟩
    · simp [mkSeed, chainCells]
  | succ j ih =>
    intro p hp
    rw [level, List.mem_flatMap] at hp
    obtain ⟨q, hq, hpext⟩ := hp
    unfold extendPath at hpext
    obtain ⟨c, hc, rfl⟩ := List.mem_map.mp hpext
    obtain ⟨qlen, qval, qe, qrow, qlast, qstart, qchain⟩ := ih q hq
    have hcrow : c.2 = q.endN.pixel.2 + 1 := (nexts_row hc).1
    have hqne : chainCells q.endN ≠ [] := by
      intro h
      rw [h] at qlen
      simp at qlen
      omega
    refine ⟨?_, ?_, ?_, ?_, ?_, ?_, ?_⟩
    · rw [chainCells_fork]
      simp [fork, qlen]
    · simp [fork, qval]
    · rw [chainCells_fork, seamEnergy_append]
      simp [fork, seamEnergy, qe]
    · show c.2 = j + 1
      omega
    · rw [chainCells_fork]
      exact List.getLast?_concat _
    · rw [chainCells_fork]
      intro d hd
      apply qstart
      cases hcq : chainCells q.endN with
      | nil => exact absurd hcq hqne
      | cons a l =>
        rw [hcq] at hd
        simp at hd
        rw [hd]
        simp
    · rw [chainCells_fork, List.chain'_append]
      refine ⟨qchain, by simp, ?_⟩
      intro x hx y hy
      simp at hy
      rw [qlast] at hx
      simp at hx
      rw [← hx, ← hy, adjStep_iff]
      exact hc

theorem level_ne_nil (g : Grid) (hw : 1 ≤ g.width) :
    ∀ j, j + 1 ≤ g.height → level g j ≠ [] := by
  intro j
  induction j with
  | zero =>
    intro _
    rw [level, seeds]
    intro hcon
    rw [List.map_eq_nil_iff, List.range_eq_nil] at hcon
    omega
  | succ j ih =>
    intro hj
    rw [level]
    intro hcon
    rw [List.flatMap_eq_nil_iff] at hcon
    obtain ⟨q, hq⟩ := List.exists_mem_of_ne_nil (level g j) (ih (by omega))
    have hext := hcon q hq
    unfold extendPath at hext
    rw [List.map_eq_nil_iff, nexts_nil_iff] at hext
    have hrow := (level_inv g j q hq).2.2.2.1
    omega

theorem upTo_mem (g : Grid) : ∀ m p, p ∈ upTo g m → ∃ t, t < m ∧ p ∈ level g t := by
  intro m
  induction m with
  | zero => intro p hp; simp [upTo] at hp
  | succ m ih =>
    intro p hp
    rw [upTo, List.mem_append] at hp
    rcases hp with hp | hp
    · obtain ⟨t, ht, hmem⟩ := ih p hp
      exact ⟨t, by omega, hmem⟩
    · exact ⟨m, by omega, hp⟩

/-! ### The exhaustive solver: running the worklist loop -/

theorem gdLoop_step (g : Grid) (fuel : ℕ) (paths : List GPath) (k : ℕ) (path : GPath)
    (hpk : paths[k]? = some path)
    (hne : nexts g path.endN.pixel.1 path.endN.pixel.2 ≠ []) :
    gdLoop g (fuel + 1) paths k = gdLoop g fuel (paths ++ extendPath g path) (k + 1) := by
  cases hx : nexts g path.endN.pixel.1 path.endN.pixel.2 with
  | nil => exact absurd hx hne
  | cons c cs => simp [gdLoop, hpk, hx]

theorem gdLoop_block (g : Grid) :
    ∀ (pending done extra : List GPath) (f : ℕ),
      (∀ p ∈ pending, nexts g p.endN.pixel.1 p.endN.pixel.2 ≠ []) →
      gdLoop g (f + pending.length) (done ++ pending ++ extra) done.length =
        gdLoop g f (done ++ pending ++ extra ++ pending.flatMap (extendPath g))
          (done.length + pending.length) := by
  intro pending
  induction pending with
  | nil => intro done extra f _; simp
  | cons p rest ih =>
    intro done extra f hne
    have hpk : (done ++ (p :: rest) ++ extra)[done.length]? = some p := by
      rw [List.getElem?_append_left (by simp),
        List.getElem?_append_right (le_refl _)]
      simp
    rw [show f + (p :: rest).length = f + rest.length + 1 by simp; omega]
    rw [gdLoop_step g (f + rest.length) _ _ p hpk (hne p (by simp))]
    have hL : done ++ (p :: rest) ++ extra ++ extendPath g p =
        (done ++ [p]) ++ rest ++ (extra ++ extendPath g p) := by simp
    rw [hL, show done.length + 1 = (done ++ [p]).length by simp]
    rw [ih (done ++ [p]) (extra ++ extendPath g p) f (fun q hq => hne q (by simp [hq]))]
    congr 1
    · simp
    · simp
      omega

theorem runUpTo (g : Grid) (hh : 1 ≤ g.height) :
    ∀ j, j ≤ g.height - 1 →
      ∀ f, gdLoop g (f + (upTo g j).length) (seeds g) 0 =
        gdLoop g f (upTo g (j + 1)) (upTo g j).length := by
  intro j
  induction j with
  | zero =>
    intro _ f
    simp [upTo, level]
  | succ j ih =>
    intro hj f
    have hlen : (upTo g (j + 1)).length = (upTo g j).length + (level g j).length := by
      simp [upTo]
    rw [show f + (upTo g (j + 1)).length = (f + (level g j).length) + (upTo g j).length by
      rw [hlen]; omega]
    rw [ih (by omega) (f + (level g j).length)]
    have hrows : ∀ p ∈ level g j, nexts g p.endN.pixel.1 p.endN.pixel.2 ≠ [] := by
      intro p hp
      have hrow := (level_inv g j p hp).2.2.2.1
      intro hcon
      rw [nexts_nil_iff] at hcon
      omega
    have hblock := gdLoop_block g (level g j) (upTo g j) [] f hrows
    have e2 : upTo g j ++ level g j ++ [] ++ (level g j).flatMap (extendPath g) =
        upTo g (j + 2) := by
      simp [upTo, level]
    have e1 : upTo g j ++ level g j ++ ([] : List GPath) = upTo g (j + 1) := by
      simp [upTo]
    have e3 : (upTo g j).length + (level g j).length = (upTo g (j + 1)).length := hlen.symm
    rw [e2, e1, e3] at hblock
    exact hblock

theorem gd_core (g : Grid) (hw : 1 ≤ g.width) (hh : 1 ≤ g.height) :
    ∃ r rs, level g (g.height - 1) = r :: rs ∧
      gd_seam g = Except.ok (chainCells (pickMin GPath.energy r rs).endN) := by
  obtain ⟨r, rs, hrs⟩ : ∃ r rs, level g (g.height - 1) = r :: rs := by
    cases hlev : level g (g.height - 1) with
    | nil => exact absurd hlev (level_ne_nil g hw (g.height - 1) (by omega))
    | cons r rs => exact ⟨r, rs, rfl⟩
  refine ⟨r, rs, hrs, ?_⟩
  unfold gd_seam gdFuel
  have hsplit : (upTo g g.height).length =
      (upTo g (g.height - 1)).length + (level g (g.height - 1)).length := by
    conv_lhs => rw [show g.height = g.height - 1 + 1 from by omega]
    simp [upTo]
  rw [hsplit,
    show (upTo g (g.height - 1)).length + (level g (g.height - 1)).length + 1 =
      ((level g (g.height - 1)).length + 1) + (upTo g (g.height - 1)).length by omega]
  rw [runUpTo g hh (g.height - 1) (le_refl _) ((level g (g.height - 1)).length + 1)]
  have hpk : (upTo g (g.height - 1 + 1))[(upTo g (g.height - 1)).length]? = some r := by
    rw [show upTo g (g.height - 1 + 1) =
        upTo g (g.height - 1) ++ level g (g.height - 1) from rfl]
    rw [List.getElem?_append_right (le_refl _)]
    simp [hrs]
  have hnil : nexts g r.endN.pixel.1 r.endN.pixel.2 = [] := by
    have hrow := (level_inv g (g.height - 1) r (by rw [hrs]; simp)).2.2.2.1
    rw [nexts_nil_iff, hrow]
    omega
  have hfilter : (upTo g (g.height - 1 + 1)).filter (fun p => p.len == g.height) = r :: rs := by
    rw [show upTo g (g.height - 1 + 1) =
        upTo g (g.height - 1) ++ level g (g.height - 1) from rfl]
    rw [List.filter_append]
    have h1 : (upTo g (g.height - 1)).filter (fun p => p.len == g.height) = [] := by
      rw [List.filter_eq_nil_iff]
      intro p hp
      obtain ⟨t, ht, hmem⟩ := upTo_mem g (g.height - 1) p hp
      have hlen := (level_inv g t p hmem).2.1
      simp
      omega
    have h2 : (level g (g.height - 1)).filter (fun p => p.len == g.height) =
        level g (g.height - 1) := by
      rw [List.filter_eq_self]
      intro p hp
      have hlen := (level_inv g (g.height - 1) p hp).2.1
      simp
      omega
    rw [h1, h2, hrs]
    simp
  simp only [gdLoop, hpk, hnil, hfilter]

/-! ### The exhaustive solver: completeness and encounter order -/

theorem level_complete (g : Grid) :
    ∀ j (t : List Cell), t.length = j + 1 →
      (∀ c ∈ t.take 1, c.1 < g.width ∧ c.2 = 0) →
      List.Chain' (adjStep g) t →
      ∃ p ∈ level g j, chainCells p.endN = t := by
  intro j
  induction j with
  | zero =>
    intro t hlen hstart hchain
    cases t with
    | nil => simp at hlen
    | cons a t' =>
      cases t' with
      | nil =>
        obtain ⟨a1, a2⟩ := a
        obtain ⟨hw, hr⟩ := hstart (a1, a2) (by simp)
        refine ⟨mkSeed g a1, ?_, ?_⟩
        · rw [level, seeds]
          exact List.mem_map_of_mem _ (List.mem_range.mpr hw)
        · simp at hr
          simp [mkSeed, chainCells, hr]
      | cons b t'' => simp at hlen
  | succ j ih =>
    intro t hlen hstart hchain
    have hne : t ≠ [] := by intro h; rw [h] at hlen; simp at hlen
    have ht : t.dropLast ++ [t.getLast hne] = t := List.dropLast_append_getLast hne
    have hlen' : t.dropLast.length = j + 1 := by
      rw [List.length_dropLast, hlen]
      omega
    have hchain2 := hchain
    rw [← ht, List.chain'_append] at hchain2
    obtain ⟨hchain', _, hlink⟩ := hchain2
    have hstart' : ∀ d ∈ t.dropLast.take 1, d.1 < g.width ∧ d.2 = 0 := by
      intro d hd
      apply hstart
      cases ht2 : t with
      | nil => exact absurd ht2 hne
      | cons a t' =>
        cases t' with
        | nil => rw [ht2] at hlen; simp at hlen
        | cons b t'' =>
          rw [ht2] at hd
          simp [List.dropLast] at hd
          rw [hd]
          simp
    obtain ⟨q, hq, hqchain⟩ := ih t.dropLast hlen' hstart' hchain'
    have hlast_q : (chainCells q.endN).getLast? = some q.endN.pixel :=
      (level_inv g j q hq).2.2.2.2.1
    have hcmem : t.getLast hne ∈ nexts g q.endN.pixel.1 q.endN.pixel.2 := by
      have hopt : q.endN.pixel ∈ t.dropLast.getLast? := by
        rw [← hqchain]
        simp [hlast_q]
      have := hlink q.endN.pixel hopt (t.getLast hne) (by simp)
      exact adjStep_iff.mp this
    refine ⟨fork g q (t.getLast hne), ?_, ?_⟩
    · rw [level, List.mem_flatMap]
      refine ⟨q, hq, ?_⟩
      unfold extendPath
      exact List.mem_map_of_mem _ hcmem
    · rw [chainCells_fork, hqchain, ht]

theorem lex_append {r : ℕ → ℕ → Prop} :
    ∀ {a b : List ℕ}, List.Lex r a b → a.length = b.length →
      ∀ (u v : List ℕ), List.Lex r (a ++ u) (b ++ v) := by
  intro a b h
  induction h with
  | nil => intro hlen; simp at hlen
  | rel hab => intro _ u v; exact List.Lex.rel hab
  | cons _ ih =>
    intro hlen u v
    exact List.Lex.cons (ih (by simpa using hlen) u v)

theorem lex_snoc {r : ℕ → ℕ → Prop} {x y : ℕ} (h : r x y) :
    ∀ (l : List ℕ), List.Lex r (l ++ [x]) (l ++ [y]) := by
  intro l
  induction l with
  | nil => exact List.Lex.rel h
  | cons a l ih => exact List.Lex.cons ih

theorem colLex_append {a b : List Cell} (h : colLex a b) (hlen : a.length = b.length)
    (u v : List Cell) : colLex (a ++ u) (b ++ v) := by
  unfold colLex colSeq at h ⊢
  rw [List.map_append, List.map_append]
  exact lex_append h (by simp [hlen]) _ _

theorem colLex_snoc {t : List Cell} {c d : Cell} (h : c.1 < d.1) :
    colLex (t ++ [c]) (t ++ [d]) := by
  unfold colLex colSeq
  rw [List.map_append, List.map_append]
  exact lex_snoc h _

theorem level_pairwise (g : Grid) :
    ∀ j, (level g j).Pairwise
      (fun p q => colLex (chainCells p.endN) (chainCells q.endN)) := by
  intro j
  induction j with
  | zero =>
    rw [level, seeds, List.pairwise_map]
    apply List.Pairwise.imp ?_ (List.pairwise_lt_range g.width)
    intro a b hab
    unfold colLex colSeq
    simp [mkSeed, chainCells]
    exact hab
  | succ j ih =>
    rw [level, List.flatMap_def, List.pairwise_flatten]
    constructor
    · intro l hl
      obtain ⟨q, hq, rfl⟩ := List.mem_map.mp hl
      unfold extendPath
      rw [List.pairwise_map]
      apply List.Pairwise.imp ?_ (nexts_cols_sorted g _ _)
      intro c d hcd
      rw [chainCells_fork, chainCells_fork]
      exact colLex_snoc hcd
    · rw [List.pairwise_map]
      apply List.Pairwise.imp_of_mem ?_ ih
      intro p q hp hq hpq x hx y hy
      unfold extendPath at hx hy
      obtain ⟨c, hc, rfl⟩ := List.mem_map.mp hx
      obtain ⟨d, hd, rfl⟩ := List.mem_map.mp hy
      rw [chainCells_fork, chainCells_fork]
      have h1 : (chainCells p.endN).length = j + 1 := by
        rw [(level_inv g j p hp).1, (level_inv g j p hp).2.1]
      have h2 : (chainCells q.endN).length = j + 1 := by
        rw [(level_inv g j q hq).1, (level_inv g j q hq).2.1]
      exact colLex_append hpq (by omega) _ _

theorem gd_main (g : Grid) (hw : 1 ≤ g.width) (hh : 1 ≤ g.height) :
    ∃ s, gd_seam g = Except.ok s ∧ IsSeam g s ∧
      (∀ t, IsSeam g t → seamEnergy g s ≤ seamEnergy g t) ∧
      (∀ t, IsSeam g t → seamEnergy g t = seamEnergy g s → t ≠ s → colLex s t) ∧
      (∀ t, IsSeam g t ↔ ∃ p ∈ level g (g.height - 1), chainCells p.endN = t) := by
  obtain ⟨r, rs, hrs, hok⟩ := gd_core g hw hh
  set best := pickMin GPath.energy r rs with hbest
  have hbmem : best ∈ level g (g.height - 1) := by rw [hrs]; exact pickMin_mem _ r rs
  have hinv := level_inv g (g.height - 1) best hbmem
  have hlen : (chainCells best.endN).length = g.height := by
    rw [hinv.1, hinv.2.1]; omega
  have hseam : IsSeam g (chainCells best.endN) :=
    ⟨hlen, hinv.2.2.2.2.2.1, hinv.2.2.2.2.2.2⟩
  have hchar : ∀ t, IsSeam g t ↔
      ∃ p ∈ level g (g.height - 1), chainCells p.endN = t := by
    intro t
    constructor
    · intro ht
      apply level_complete g (g.height - 1) t (by rw [ht.1]; omega) ht.2.1 ht.2.2
    · rintro ⟨p, hp, rfl⟩
      have hinvp := level_inv g (g.height - 1) p hp
      refine ⟨?_, hinvp.2.2.2.2.2.1, hinvp.2.2.2.2.2.2⟩
      rw [hinvp.1, hinvp.2.1]; omega
  refine ⟨chainCells best.endN, hok, hseam, ?_, ?_, hchar⟩
  · intro t ht
    obtain ⟨p, hp, hchain_eq⟩ := (hchar t).mp ht
    have hpe : p.energy = seamEnergy g t := by
      rw [(level_inv g (g.height - 1) p hp).2.2.1, hchain_eq]
    have hle := pickMin_le GPath.energy r rs p (by rw [← hrs]; exact hp)
    rw [← hbest] at hle
    have hse : best.energy = seamEnergy g (chainCells best.endN) := hinv.2.2.1
    omega
  · intro t ht hte hne
    obtain ⟨p, hp, hchain_eq⟩ := (hchar t).mp ht
    have hpw : (r :: rs).Pairwise
        (fun p q => colLex (chainCells p.endN) (chainCells q.endN)) := by
      rw [← hrs]; exact level_pairwise g (g.height - 1)
    have hpe : GPath.energy p = GPath.energy best := by
      rw [show GPath.energy p = p.energy from rfl,
        (level_inv g (g.height - 1) p hp).2.2.1, hchain_eq, hte,
        ← hinv.2.2.1]
    have htie := pickMin_tie GPath.energy
      (fun p q => colLex (chainCells p.endN) (chainCells q.endN)) r rs hpw p
      (by rw [← hrs]; exact hp) hpe
    rcases htie with heq | hlex
    · exact absurd (by rw [← hchain_eq, heq]) hne
    · rw [← hchain_eq]
      exact hlex

/-! ### Boundary situations -/

theorem cost_height_one (g : Grid) (hh : g.height = 1) (i : ℕ) :
    cost g i 0 = g.energy i 0 :=
  cost_of_nil (nexts_nil_iff.mpr (by omega))

theorem dp_height_one (g : Grid) (hh : g.height = 1) (hw : 1 ≤ g.width) :
    dp_seam g = Except.ok [(startCol g, 0)] := by
  obtain ⟨hok, _, _, _⟩ := dp_core g hw (by omega)
  rw [hok]
  rw [hh]
  simp [dpWalkAux, hh]

theorem seeds_cons (g : Grid) (hw : 1 ≤ g.width) :
    seeds g = mkSeed g 0 :: (List.range' 1 (g.width - 1)).map (mkSeed g) := by
  rw [seeds, ← row0_list hw]
  rfl

theorem startCol_first (g : Grid) (hw : 1 ≤ g.width) :
    ∀ i < g.width, cost g i 0 = cost g (startCol g) 0 → startCol g ≤ i := by
  intro i hi he
  have hs : startCol g = pickMin (fun n => cost g n 0) 0 (List.range' 1 (g.width - 1)) := rfl
  have hpw : ((0 : ℕ) :: List.range' 1 (g.width - 1)).Pairwise (fun m n => m < n) := by
    rw [row0_list hw]
    exact List.pairwise_lt_range g.width
  have htie := pickMin_tie (fun n => cost g n 0) (fun m n => m < n) 0
    (List.range' 1 (g.width - 1)) hpw i
    (by rw [row0_list hw]; exact List.mem_range.mpr hi) (by rw [← hs]; exact he)
  rw [← hs] at htie
  rcases htie with h | h <;> omega

theorem gd_height_one (g : Grid) (hh : g.height = 1) (hw : 1 ≤ g.width) :
    gd_seam g = Except.ok [(startCol g, 0)] := by
  obtain ⟨r, rs, hrs, hok⟩ := gd_core g hw (by omega)
  rw [hok]
  rw [hh] at hrs
  have hrs' : mkSeed g 0 :: (List.range' 1 (g.width - 1)).map (mkSeed g) = r :: rs := by
    rw [← seeds_cons g hw]
    exact hrs
  rw [List.cons.injEq] at hrs'
  rw [← hrs'.1, ← hrs'.2]
  rw [pickMin_map GPath.energy (mkSeed g) 0 (List.range' 1 (g.width - 1))]
  have hcongr : pickMin (fun a => GPath.energy (mkSeed g a)) 0
      (List.range' 1 (g.width - 1)) = startCol g := by
    rw [startCol]
    apply pickMin_congr
    intro y hy
    show g.energy y 0 = cost g y 0
    rw [cost_of_nil (nexts_nil_iff.mpr (by omega))]
  rw [hcongr]
  rfl

theorem zero_dims (g : Grid) (h : g.width = 0 ∨ g.height = 0) :
    dp_seam g = Except.error Err.keyError ∧
      gd_seam g = (if g.width = 0 then Except.error Err.noneReturn
        else Except.error Err.valueError) := by
  constructor
  · unfold dp_seam dynamic
    rw [if_neg (by simp; omega)]
  · by_cases hw : g.width = 0
    · rw [if_pos hw]
      unfold gd_seam gdFuel
      have hseeds : seeds g = [] := by simp [seeds, hw]
      rw [hseeds]
      simp [gdLoop]
    · have hh : g.height = 0 := by rcases h with h | h; omega; exact h
      rw [if_neg hw]
      unfold gd_seam gdFuel
      rw [hh]
      have hw1 : 1 ≤ g.width := by omega
      have hpk : (seeds g)[0]? = some (mkSeed g 0) := by
        rw [seeds_cons g hw1]
        simp
      have hnil : nexts g (mkSeed g 0).endN.pixel.1 (mkSeed g 0).endN.pixel.2 = [] := by
        rw [nexts_nil_iff]
        simp [mkSeed, PNode.pixel]
        omega
      have hfilter : (seeds g).filter (fun p => p.len == g.height) = [] := by
        rw [List.filter_eq_nil_iff]
        intro p hp
        rw [seeds] at hp
        obtain ⟨i, _, rfl⟩ := List.mem_map.mp hp
        simp [mkSeed]
        omega
      simp only [show (upTo g 0).length = 0 from rfl, Nat.zero_add]
      simp only [gdLoop, hpk, hnil, hfilter]

/-! ### Row indices of a seam -/

theorem chain_row_index {g : Grid} :
    ∀ (s : List Cell) (a : Cell), List.Chain' (adjStep g) s → s.head? = some a →
      ∀ k (hk : k < s.length), (s.get ⟨k, hk⟩).2 = a.2 + k := by
  intro s
  induction s with
  | nil => intro a _ _ k hk; simp at hk
  | cons b t ih =>
    intro a hchain hhead k hk
    simp at hhead
    cases k with
    | zero => simp [hhead]
    | succ k =>
      cases t with
      | nil => simp at hk
      | cons d r =>
        rw [List.chain'_cons] at hchain
        have hdrow := (nexts_row (adjStep_iff.mp hchain.1)).1
        have hind := ih d hchain.2 (by simp) k (by simpa using hk)
        rw [List.get_cons_succ]
        rw [hind]
        rw [hhead] at hdrow
        omega

theorem rows_eq_range {g : Grid} {s : List Cell} (hs : IsSeam g s) (hh : 1 ≤ g.height) :
    s.map Prod.snd = List.range g.height := by
  obtain ⟨i, hi, hhead, hp⟩ := isSeam_pathFrom hs hh
  apply List.ext_get
  · rw [List.length_map, hs.1, List.length_range]
  · intro n h1 h2
    have hidx := chain_row_index s (i, 0) hs.2.2 hhead n (by simpa using h1)
    simp at hidx ⊢
    simpa using hidx

/-! ## Claims -/

/-- C1: for every grid with `width ≥ 1`, `height ≥ 1` and (necessarily
non-negative, `ℕ`-valued) energy function, the seam returned by `dp_seam` and
the seam returned by `gd_seam` have identical total energy, even though the
two cell sequences may differ where ties exist. -/
theorem claim1_dp_gd_equal_energy (g : Grid) (hw : 1 ≤ g.width) (hh : 1 ≤ g.height) :
    ∃ s t, dp_seam g = Except.ok s ∧ gd_seam g = Except.ok t ∧
      seamEnergy g s = seamEnergy g t := by
  obtain ⟨hok, hseam, he, hmin⟩ := dp_core g hw hh
  obtain ⟨t, htok, htseam, htmin, _, _⟩ := gd_main g hw hh
  refine ⟨_, t, hok, htok, ?_⟩
  have h1 := hmin t htseam
  have h2 := htmin _ hseam
  omega

/-- C1 witness at the 3×3 grid. -/
theorem claim1_witness :
    1 ≤ g3.width ∧ 1 ≤ g3.height ∧
      ∃ s t, dp_seam g3 = Except.ok s ∧ gd_seam g3 = Except.ok t ∧
        seamEnergy g3 s = seamEnergy g3 t :=
  ⟨by decide, by decide, claim1_dp_gd_equal_energy g3 (by decide) (by decide)⟩

/-- C2: `dynamic()` is defined on every in-range cell; a cell with no
successors (equivalently, a bottom-row cell) maps to its own energy, every
other cell maps to its own energy plus the minimum mapped value among its
successors, and the mapped value is the minimum cumulative energy of a
`nexts`-path from the cell to the bottom row, endpoints inclusive. -/
theorem claim2_dynamic_table (g : Grid) (i j : ℕ) (hi : i < g.width) (hj : j < g.height) :
    ∃ v, dynamic g (i, j) = some v ∧
      (nexts g i j = [] ↔ j = g.height - 1) ∧
      (nexts g i j = [] → v = g.energy i j) ∧
      (∀ c cs, nexts g i j = c :: cs →
        v = g.energy i j + listMin ((c :: cs).map fun d => cost g d.1 d.2)) ∧
      (∃ p, IsPathFrom g i j p ∧ seamEnergy g p = v) ∧
      (∀ p, IsPathFrom g i j p → v ≤ seamEnergy g p) := by
  refine ⟨cost g i j, ?_, ?_, ?_, ?_, ?_, ?_⟩
  · unfold dynamic
    exact if_pos ⟨hi, hj⟩
  · rw [nexts_nil_iff]; omega
  · exact cost_of_nil
  · intro c cs hx; exact cost_of_cons hx
  · exact cost_exists_path g g.height i j hj (by omega)
  · intro p hp; exact cost_le_path hp

/-- C2 witness at cell (1, 1) of the 3×3 grid. -/
theorem claim2_witness :
    1 < g3.width ∧ 1 < g3.height ∧
      ∃ v, dynamic g3 (1, 1) = some v ∧
        (nexts g3 1 1 = [] ↔ 1 = g3.height - 1) ∧
        (nexts g3 1 1 = [] → v = g3.energy 1 1) ∧
        (∀ c cs, nexts g3 1 1 = c :: cs →
          v = g3.energy 1 1 + listMin ((c :: cs).map fun d => cost g3 d.1 d.2)) ∧
        (∃ p, IsPathFrom g3 1 1 p ∧ seamEnergy g3 p = v) ∧
        (∀ p, IsPathFrom g3 1 1 p → v ≤ seamEnergy g3 p) :=
  ⟨by decide, by decide, claim2_dynamic_table g3 1 1 (by decide) (by decide)⟩

/-- C3 counterexample: on the 2×2 grid `g22`, `dp_seam` returns
`[(0,0),(0,1)]` with energy 5, yet `[(1,0),(0,1)]` is a top-to-bottom path
under the claim's adjacency (row +1, column change at most 1, within bounds)
with energy 0.  The claim's minimality over all such paths fails, because the
implemented left-diagonal guard `i - 1 > 0` makes the move from column 1 into
column 0 unreachable. -/
theorem claim3_counterexample :
    dp_seam g22 = Except.ok [(0, 0), (0, 1)] ∧
      IsIdealSeam g22 [(1, 0), (0, 1)] ∧
      seamEnergy g22 [(1, 0), (0, 1)] < seamEnergy g22 [(0, 0), (0, 1)] :=
  ⟨rfl,
    ⟨by decide, by decide, List.chain'_cons.mpr ⟨by decide, List.chain'_singleton _⟩⟩,
    by decide⟩

/-- C3 amended: `dp_seam` returns exactly `height` cells, one per row in
ascending order, consecutive pairs satisfying the implemented adjacency rule
(hence also the ideal rule), and its total energy is minimal among
top-to-bottom paths of the *implemented* adjacency (`nexts`, which excludes a
left-diagonal move into column 0), not among all ideal-adjacency paths. -/
theorem claim3_amended_dp_correct (g : Grid) (hw : 1 ≤ g.width) (hh : 1 ≤ g.height) :
    ∃ s, dp_seam g = Except.ok s ∧ s.length = g.height ∧
      s.map Prod.snd = List.range g.height ∧
      IsIdealSeam g s ∧ IsSeam g s ∧
      ∀ t, IsSeam g t → seamEnergy g s ≤ seamEnergy g t := by
  obtain ⟨hok, hseam, he, hmin⟩ := dp_core g hw hh
  refine ⟨_, hok, hseam.1, rows_eq_range hseam hh, isSeam_isIdeal hseam hh, hseam, ?_⟩
  intro t ht
  have := hmin t ht
  omega

/-- C3 amended witness at the 3×3 grid. -/
theorem claim3_witness :
    1 ≤ g3.width ∧ 1 ≤ g3.height ∧
      ∃ s, dp_seam g3 = Except.ok s ∧ s.length = g3.height ∧
        s.map Prod.snd = List.range g3.height ∧
        IsIdealSeam g3 s ∧ IsSeam g3 s ∧
        ∀ t, IsSeam g3 t → seamEnergy g3 s ≤ seamEnergy g3 t :=
  ⟨by decide, by decide, claim3_amended_dp_correct g3 (by decide) (by decide)⟩

/-- C4: `gd_seam` returns a complete top-to-bottom sequence of the same form
as `dp_seam`; at the moment the first worklist path with no successors is
processed, the worklist contains every complete root-to-bottom path (the
level-`height-1` generation enumerates them all), so filtering by
`len == height` and taking the first minimum yields the minimum energy over
all complete paths, with ties resolved toward the encounter order: lowest
starting column, then leftmost adjacency choice (lexicographically least
column sequence). -/
theorem claim4_gd_correct (g : Grid) (hw : 1 ≤ g.width) (hh : 1 ≤ g.height) :
    ∃ s, gd_seam g = Except.ok s ∧ IsSeam g s ∧
      s.map Prod.snd = List.range g.height ∧
      (∀ t, IsSeam g t ↔ ∃ p ∈ level g (g.height - 1), chainCells p.endN = t) ∧
      (∀ t, IsSeam g t → seamEnergy g s ≤ seamEnergy g t) ∧
      (∀ t, IsSeam g t → seamEnergy g t = seamEnergy g s → t ≠ s → colLex s t) := by
  obtain ⟨s, hok, hseam, hmin, htie, hchar⟩ := gd_main g hw hh
  exact ⟨s, hok, hseam, rows_eq_range hseam hh, hchar, hmin, htie⟩

/-- C4 witness at the 3×3 grid. -/
theorem claim4_witness :
    1 ≤ g3.width ∧ 1 ≤ g3.height ∧
      ∃ s, gd_seam g3 = Except.ok s ∧ IsSeam g3 s ∧
        s.map Prod.snd = List.range g3.height ∧
        (∀ t, IsSeam g3 t ↔ ∃ p ∈ level g3 (g3.height - 1), chainCells p.endN = t) ∧
        (∀ t, IsSeam g3 t → seamEnergy g3 s ≤ seamEnergy g3 t) ∧
        (∀ t, IsSeam g3 t → seamEnergy g3 t = seamEnergy g3 s → t ≠ s → colLex s t) :=
  ⟨by decide, by decide, claim4_gd_correct g3 (by decide) (by decide)⟩

/-- C5 counterexample: on a 3×2 grid, `nexts 1 0` omits the left-diagonal
target `(0, 1)` even though column 0 lies within `[0, width)`: the
implemented guard is `i - 1 > 0`, not `i - 1 ≥ 0` as the claim's wording
(`specNexts`) requires. -/
theorem claim5_counterexample :
    nexts g32 1 0 ≠ specNexts g32 1 0 ∧
      nexts g32 1 0 = [(1, 1), (2, 1)] ∧
      specNexts g32 1 0 = [(0, 1), (1, 1), (2, 1)] :=
  ⟨by decide, by decide, by decide⟩

/-- C5 amended: for every in-range cell, `nexts` returns, in the order
left-diagonal, straight-down, right-diagonal with invalid candidates
omitted, exactly the candidates whose target row is below `height` and whose
target column lies within `[1, width)` for the left diagonal (column 0 is
excluded) and within `[0, width)` for the right diagonal. -/
theorem claim5_amended_nexts (g : Grid) (i j : ℕ) (hi : i < g.width) (hj : j < g.height) :
    nexts g i j = amendedNexts g i j := by
  unfold nexts amendedNexts
  have h1 : (if i - 1 > 0 ∧ j + 1 < g.height then some ((i - 1, j + 1) : Cell) else none) =
      (if 1 ≤ i - 1 ∧ i - 1 < g.width ∧ j + 1 < g.height
        then some ((i - 1, j + 1) : Cell) else none) := by
    apply if_congr ?_ rfl rfl
    constructor
    · intro h; exact ⟨by omega, by omega, h.2⟩
    · intro h; exact ⟨by omega, h.2.2⟩
  rw [h1]

/-- C5 amended witness. -/
theorem claim5_witness :
    1 < g32.width ∧ 0 < g32.height ∧ nexts g32 1 0 = amendedNexts g32 1 0 :=
  ⟨by decide, by decide, claim5_amended_nexts g32 1 0 (by decide) (by decide)⟩

/-- C6: every `Path` object the `gd_seam` enumeration ever creates (a seed or
a fork appended to the worklist, i.e. a member of some generation level)
satisfies: `len` equals the number of nodes reachable from `end` along `prev`
links back to the root inclusive, `energy` equals the sum of the energies of
exactly those nodes, and the row of `end.pixel` equals `len - 1`.  In the
embedding the `prev` links are immutable, faithfully to the source, where
forking overwrites only the shared node's write-only `next` field. -/
theorem claim6_path_invariant (g : Grid) (j : ℕ) (p : GPath) (hp : p ∈ level g j) :
    (chainCells p.endN).length = p.len ∧
      p.energy = seamEnergy g (chainCells p.endN) ∧
      p.endN.pixel.2 = p.len - 1 := by
  obtain ⟨h1, h2, h3, h4, _, _, _⟩ := level_inv g j p hp
  refine ⟨h1, h3, ?_⟩
  omega

/-- C6 witness: the first seed of the 3×3 grid. -/
theorem claim6_witness :
    mkSeed g3 0 ∈ level g3 0 ∧
      ((chainCells (mkSeed g3 0).endN).length = (mkSeed g3 0).len ∧
        (mkSeed g3 0).energy = seamEnergy g3 (chainCells (mkSeed g3 0).endN) ∧
        (mkSeed g3 0).endN.pixel.2 = (mkSeed g3 0).len - 1) := by
  have hmem : mkSeed g3 0 ∈ level g3 0 := by
    show mkSeed g3 0 ∈ seeds g3
    rw [seeds]
    exact List.mem_map_of_mem _ (by decide)
  exact ⟨hmem, claim6_path_invariant g3 0 (mkSeed g3 0) hmem⟩

/-- C7: on the 3×3 grid with energy 1 down column 1 and 9 elsewhere, both
solvers return exactly the middle-column seam, of total energy 3. -/
theorem claim7_concrete_3x3 :
    dp_seam g3 = Except.ok [(1, 0), (1, 1), (1, 2)] ∧
      gd_seam g3 = Except.ok [(1, 0), (1, 1), (1, 2)] ∧
      seamEnergy g3 [(1, 0), (1, 1), (1, 2)] = 3 :=
  ⟨rfl, rfl, by decide⟩

/-- C8: on any grid with `height = 1` and `width ≥ 1`, both solvers return
the single-cell seam at the first minimum-energy column of row 0 (lowest
column among ties), and the forward walk of `dp_seam` is never executed
(`dpWalkAux` immediately returns `[]` because the selected row-0 cell already
satisfies the termination test `row = height - 1`). -/
theorem claim8_height_one (g : Grid) (hh : g.height = 1) (hw : 1 ≤ g.width) :
    ∃ c, dp_seam g = Except.ok [(c, 0)] ∧ gd_seam g = Except.ok [(c, 0)] ∧
      c < g.width ∧ (∀ i < g.width, g.energy c 0 ≤ g.energy i 0) ∧
      (∀ i < g.width, g.energy i 0 = g.energy c 0 → c ≤ i) ∧
      dpWalkAux g g.height c 0 = [] := by
  refine ⟨startCol g, dp_height_one g hh hw, gd_height_one g hh hw,
    startCol_lt g hw, ?_, ?_, ?_⟩
  · intro i hi
    have := startCol_min g hw i hi
    rwa [cost_height_one g hh, cost_height_one g hh] at this
  · intro i hi he
    apply startCol_first g hw i hi
    rw [cost_height_one g hh, cost_height_one g hh]
    exact he
  · rw [hh]
    simp [dpWalkAux, hh]

/-- C8 witness at a 4×1 grid with a tie between columns 1 and 2. -/
theorem claim8_witness :
    g41.height = 1 ∧ 1 ≤ g41.width ∧
      ∃ c, dp_seam g41 = Except.ok [(c, 0)] ∧ gd_seam g41 = Except.ok [(c, 0)] ∧
        c < g41.width ∧ (∀ i < g41.width, g41.energy c 0 ≤ g41.energy i 0) ∧
        (∀ i < g41.width, g41.energy i 0 = g41.energy c 0 → c ≤ i) ∧
        dpWalkAux g41 g41.height c 0 = [] :=
  ⟨by decide, by decide, claim8_height_one g41 (by decide) (by decide)⟩

/-- C9 counterexample: on the 0×0 grid no solver raises an explicit
invalid-dimensions error; `dp_seam` fails with the `KeyError` of the first
table lookup and `gd_seam` falls off its loop and returns `None`. -/
theorem claim9_counterexample :
    dp_seam g00 = Except.error Err.keyError ∧
      gd_seam g00 = Except.error Err.noneReturn ∧
      Err.keyError ≠ Err.invalidDims ∧ Err.noneReturn ≠ Err.invalidDims :=
  ⟨rfl, rfl, by decide, by decide⟩

/-- C9 amended: on every grid with `width = 0` or `height = 0` the solvers
fail implicitly instead of rejecting with an explicit invalid-dimensions
error: `best_seam` with the DP flag propagates the `KeyError` of the lookup
`cells[(0, 0)]` in the empty table, and with the exhaustive flag it returns
`None` when `width = 0` (the loop body never runs) and raises the
`ValueError` of `min([])` when `width ≥ 1` and `height = 0`. -/
theorem claim9_amended_zero_dims (g : Grid) (h : g.width = 0 ∨ g.height = 0) :
    best_seam g true = Except.error Err.keyError ∧
      best_seam g false = (if g.width = 0 then Except.error Err.noneReturn
        else Except.error Err.valueError) := by
  obtain ⟨h1, h2⟩ := zero_dims g h
  exact ⟨h1, h2⟩

/-- C9 amended witness at the 2×0 grid. -/
theorem claim9_witness :
    (g20.width = 0 ∨ g20.height = 0) ∧
      best_seam g20 true = Except.error Err.keyError ∧
      best_seam g20 false = (if g20.width = 0 then Except.error Err.noneReturn
        else Except.error Err.valueError) :=
  ⟨by decide, claim9_amended_zero_dims g20 (by decide)⟩

/-- C10: with a deterministic, pure energy function and no intervening
mutation, two invocations of `best_seam` with the same flag see extensionally
equal grid state and return the identical cell sequence, hence the same
energy total.  The embedding is pure precisely because the source keeps no
state across calls: the cost table and the `penergies` cache are local to one
invocation. -/
theorem claim10_idempotent (g₁ g₂ : Grid) (dp : Bool)
    (hw : g₁.width = g₂.width) (hh : g₁.height = g₂.height)
    (he : ∀ i j, g₁.energy i j = g₂.energy i j) :
    best_seam g₁ dp = best_seam g₂ dp ∧
      ∀ s, best_seam g₁ dp = Except.ok s → seamEnergy g₁ s = seamEnergy g₂ s := by
  have hg : g₁ = g₂ := by
    cases g₁ with
    | mk w1 h1 e1 =>
      cases g₂ with
      | mk w2 h2 e2 =>
        simp at hw hh
        rw [hw, hh]
        have : e1 = e2 := funext fun i => funext fun j => he i j
        rw [this]
  rw [hg]
  exact ⟨rfl, fun s _ => rfl⟩

/-- C10 witness: two calls on the 3×3 grid. -/
theorem claim10_witness :
    g3.width = g3.width ∧ g3.height = g3.height ∧ (∀ i j, g3.energy i j = g3.energy i j) ∧
      (best_seam g3 true = best_seam g3 true ∧
        ∀ s, best_seam g3 true = Except.ok s → seamEnergy g3 s = seamEnergy g3 s) :=
  ⟨rfl, rfl, fun _ _ => rfl,
    claim10_idempotent g3 g3 true rfl rfl (fun _ _ => rfl)⟩

end SeamCarving
